import Mathlib

/-!
Shallow embedding of the `Corpus` document-collection container described by
the repository's documentation (doc/source notebooks).  The repository ships
only the recorded notebook sessions, not the implementation of the container
itself, so every operation below is modelled from the specification's
contract, kept consistent with the input/output pairs recorded in the
notebook cells.
-/

set_option autoImplicit false

/-- Modelled from the spec: the error kinds surfaced by container operations
(`NotFound` for an absent label, `InvalidArgument` for a sample size that
exceeds the population). -/
inductive CorpusError where
  | notFound
  | invalidArgument
  deriving DecidableEq, Repr

/-- Modelled from the spec: the `Corpus` / `DocumentCollection` container —
an ordered, label-keyed mapping from document label to document content,
stored as an association list in insertion order (the implementation of the
`Corpus` class is not part of the supplied sources). -/
structure Corpus where
  docs : List (String × String)
  deriving DecidableEq, Repr

/-- Modelled from the spec: well-formedness invariant — every label present
maps to exactly one content string (label uniqueness within a collection). -/
def Corpus.Wf (c : Corpus) : Prop :=
  (c.docs.map Prod.fst).Nodup

instance (c : Corpus) : Decidable c.Wf := by
  unfold Corpus.Wf; infer_instance

/-- Modelled from the spec: the length query `len(corpus)` (document count). -/
def Corpus.length (c : Corpus) : Nat :=
  c.docs.length

/-- Modelled from the spec: the `n_docs` attribute (count of documents). -/
def Corpus.n_docs (c : Corpus) : Nat :=
  c.docs.length

/-- Modelled from the spec: the `doc_labels` listing — all labels of the
collection, in the defined (storage) order of the underlying mapping. -/
def Corpus.doc_labels (c : Corpus) : List String :=
  c.docs.map Prod.fst

/-- Modelled from the spec: the collection state after `del corpus[l]` on a
present label — the single entry keyed by `l` is removed. -/
def Corpus.erase (c : Corpus) (l : String) : Corpus :=
  ⟨c.docs.eraseP (fun d => d.1 == l)⟩

/-- Modelled from the spec: delete a document by label; fails with a
NotFound error if the label is absent. -/
def Corpus.delete (c : Corpus) (l : String) : Except CorpusError Corpus :=
  if l ∈ c.doc_labels then .ok (c.erase l) else .error .notFound

/-- Modelled from the spec: remove every occurrence of each character of the
set `S` from one content string. -/
def removeCharsStr (s : String) (S : List Char) : String :=
  ⟨s.data.filter (fun ch => !(S.contains ch))⟩

/-- Modelled from the spec: `remove_characters(S)` — for every document,
delete every occurrence of each character of `S` from its content, in place
(labels untouched). -/
def Corpus.remove_characters (c : Corpus) (S : List Char) : Corpus :=
  ⟨c.docs.map (fun d => (d.1, removeCharsStr d.2 S))⟩

/-- Modelled from the spec: retain only the characters of the whitelist `W`
in one content string, removing all others. -/
def filterCharsStr (s : String) (W : List Char) : String :=
  ⟨s.data.filter (fun ch => W.contains ch)⟩

/-- Modelled from the spec: `filter_characters(W)` — for every document,
retain only characters present in the whitelist `W`, removing all others. -/
def Corpus.filter_characters (c : Corpus) (W : List Char) : Corpus :=
  ⟨c.docs.map (fun d => (d.1, filterCharsStr d.2 W))⟩

/-- Modelled from the spec: `unique_characters` — the set union of all
distinct characters across every document's content. -/
def Corpus.unique_characters (c : Corpus) : Finset Char :=
  c.docs.foldr (fun d s => d.2.data.toFinset ∪ s) ∅

/-- Claim C9: the length query and the `n_docs` attribute agree on every
collection state, both returning the number of stored label/content pairs. -/
theorem C9_length_eq_n_docs (c : Corpus) :
    c.length = c.n_docs ∧ c.n_docs = c.docs.length :=
  ⟨rfl, rfl⟩

theorem mem_unique_characters {c : Corpus} {ch : Char} :
    ch ∈ c.unique_characters ↔ ∃ d ∈ c.docs, ch ∈ d.2.data := by
  unfold Corpus.unique_characters
  induction c.docs with
  | nil => simp
  | cons d ds ih => simp [ih]

/-- Claim C5: `unique_characters()` holds exactly the characters occurring
in some document's content (the set union over all documents, duplicates
collapsed), and with no intervening mutation repeated calls return the same
set. -/
theorem C5_unique_characters_spec (c : Corpus) (ch : Char) :
    (ch ∈ c.unique_characters ↔ ∃ d ∈ c.docs, ch ∈ d.2.data) ∧
      c.unique_characters = c.unique_characters :=
  ⟨mem_unique_characters, rfl⟩

theorem removeCharsStr_idem (s : String) (S : List Char) :
    removeCharsStr (removeCharsStr s S) S = removeCharsStr s S := by
  simp [removeCharsStr, List.filter_filter]

/-- Claim C6: `remove_characters(S)` removes every occurrence of each
character of `S` from every document's content in place (labels untouched),
and applying it twice yields the same collection state as applying it
once. -/
theorem C6_remove_characters_spec (c : Corpus) (S : List Char) (ch : Char)
    (d : String × String) :
    (d ∈ (c.remove_characters S).docs → ch ∈ d.2.data → ch ∉ S) ∧
      (c.remove_characters S).remove_characters S = c.remove_characters S ∧
      (c.remove_characters S).doc_labels = c.doc_labels := by
  refine ⟨?_, ?_, ?_⟩
  · intro hd hch
    simp only [Corpus.remove_characters, List.mem_map] at hd
    obtain ⟨e, -, he⟩ := hd
    subst he
    simp only [removeCharsStr] at hch
    simp at hch
    exact hch.2
  · simp [Corpus.remove_characters, removeCharsStr_idem]
  · simp [Corpus.remove_characters, Corpus.doc_labels]

theorem C6_remove_characters_spec_witness :
    ('b' : Char) ∉ (['x'] : List Char) :=
  (C6_remove_characters_spec ⟨[("a", "bxc")]⟩ ['x'] 'b' ("a", "bc")).1
    (by decide) (by decide)

/-- Claim C7: after `filter_characters(W)` every character reported by
`unique_characters()` lies in the whitelist `W`, because every character
outside `W` was removed from every document's content. -/
theorem C7_filter_characters_subset (c : Corpus) (W : List Char) (ch : Char) :
    ch ∈ (c.filter_characters W).unique_characters → ch ∈ W := by
  intro h
  rw [mem_unique_characters] at h
  obtain ⟨d, hd, hch⟩ := h
  simp only [Corpus.filter_characters, List.mem_map] at hd
  obtain ⟨e, -, he⟩ := hd
  subst he
  simp only [filterCharsStr] at hch
  simp at hch
  exact hch.2

theorem C7_filter_characters_subset_witness :
    ('x' : Char) ∈ (['x', 'y'] : List Char) :=
  C7_filter_characters_subset ⟨[("a", "xz")]⟩ ['x', 'y'] 'x' (by decide)

/-- Modelled from the spec: scan of one document's characters detecting
paragraph boundaries.  `cur` is the current paragraph accumulated in reverse,
`nl` the run of line breaks read but not yet resolved.  A run of at least
`m` consecutive line breaks marks a paragraph boundary; a shorter run inside
a paragraph is a soft line wrap, joined as a single space. -/
def paraScan (m : Nat) : List Char → List Char → Nat → List String
  | [], cur, _ =>
    if cur = [] then [] else [String.mk cur.reverse]
  | ch :: rest, cur, nl =>
    if ch = '\n' then
      paraScan m rest cur (nl + 1)
    else if m ≤ nl then
      if cur = [] then paraScan m rest [ch] 0
      else String.mk cur.reverse :: paraScan m rest [ch] 0
    else if nl = 0 ∨ cur = [] then
      paraScan m rest (ch :: cur) 0
    else
      paraScan m rest (ch :: ' ' :: cur) 0

/-- Modelled from the spec: the pure paragraph-detection function
`(text, min_breaks) -> ordered sequence of paragraph strings`: boundaries at
runs of at least `minBreaks` consecutive line breaks, shorter runs joined
into a single space; an empty document yields no paragraph. -/
def splitIntoParagraphs (s : String) (minBreaks : Nat) : List String :=
  paraScan minBreaks s.data [] 0

/-- Modelled from the spec: `split_by_paragraphs` — every document is
removed and replaced by one new document per detected paragraph, labeled
with the original label, a separator and a 1-based sequential index,
preserving the document's paragraph order. -/
def Corpus.split_by_paragraphs (c : Corpus) (minBreaks : Nat) : Corpus :=
  ⟨(c.docs.map (fun d =>
      (splitIntoParagraphs d.2 minBreaks).enum.map
        (fun ip => (d.1 ++ "-" ++ Nat.repr (ip.1 + 1), ip.2)))).flatten⟩

theorem split_session_sample2 :
    splitIntoParagraphs
      "Here comes the second example.\n\nThis one contains three lines of plain text which means two paragraphs." 2 =
      ["Here comes the second example.",
       "This one contains three lines of plain text which means two paragraphs."] := by
  decide

theorem split_session_sample3 :
    splitIntoParagraphs
      "And here we go with the third and final example file.\nAnother line of text.\n\n§2.\nThis is the second paragraph.\n\nThe third and final paragraph." 2 =
      ["And here we go with the third and final example file. Another line of text.",
       "§2. This is the second paragraph.",
       "The third and final paragraph."] := by
  decide

/-- Claim C1: with the default boundary of two consecutive line breaks,
`split_by_paragraphs` replaces each document with one new document per
detected paragraph, labeled with the original label suffixed by a 1-based
sequential index in paragraph order; single line breaks inside a paragraph
are joined into a single space; in particular the collection
`d1 : "Hello\n\nWorld", d2 : "Short"` becomes
`d1-1 : "Hello", d1-2 : "World", d2-1 : "Short"` with count 3. -/
theorem C1_split_by_paragraphs_spec :
    (∀ c : Corpus, (c.split_by_paragraphs 2).docs =
        (c.docs.map (fun d =>
          (splitIntoParagraphs d.2 2).enum.map
            (fun ip => (d.1 ++ "-" ++ Nat.repr (ip.1 + 1), ip.2)))).flatten) ∧
      splitIntoParagraphs "a\nb" 2 = ["a b"] ∧
      Corpus.split_by_paragraphs ⟨[("d1", "Hello\n\nWorld"), ("d2", "Short")]⟩ 2 =
        ⟨[("d1-1", "Hello"), ("d1-2", "World"), ("d2-1", "Short")]⟩ ∧
      (Corpus.split_by_paragraphs ⟨[("d1", "Hello\n\nWorld"), ("d2", "Short")]⟩ 2).length = 3 := by
  refine ⟨fun c => rfl, by decide, by decide, by decide⟩

/-- Claim C8: a document whose content is the empty string yields zero
paragraphs under `split_by_paragraphs`: it is dropped from the collection
rather than kept or reported as an error. -/
theorem C8_empty_document_dropped :
    (∀ m : Nat, splitIntoParagraphs "" m = []) ∧
      Corpus.split_by_paragraphs ⟨[("e", ""), ("d2", "Short")]⟩ 2 =
        ⟨[("d2-1", "Short")]⟩ := by
  refine ⟨fun m => rfl, by decide⟩

theorem lookup_exists_of_mem_labels {docs : List (String × String)} {l : String}
    (h : l ∈ docs.map Prod.fst) : ∃ t, docs.lookup l = some t := by
  induction docs with
  | nil => simp at h
  | cons d ds ih =>
    rcases d with ⟨a, b⟩
    by_cases ha : l = a
    · exact ⟨b, by simp [List.lookup, ha]⟩
    · have hb : (l == a) = false := by simp [ha]
      simp only [List.map_cons, List.mem_cons] at h
      rcases h with h | h
      · exact absurd h ha
      · obtain ⟨t, ht⟩ := ih h
        exact ⟨t, by simp [List.lookup, hb, ht]⟩

theorem mem_of_lookup_eq_some {docs : List (String × String)} {l t : String}
    (h : docs.lookup l = some t) : (l, t) ∈ docs := by
  induction docs with
  | nil => simp [List.lookup] at h
  | cons d ds ih =>
    rcases d with ⟨a, b⟩
    by_cases ha : l = a
    · subst ha
      simp [List.lookup] at h
      simp [h]
    · have hb : (l == a) = false := by simp [ha]
      simp only [List.lookup, hb] at h
      exact List.mem_cons_of_mem _ (ih h)

theorem lookup_eq_some_of_mem {docs : List (String × String)} {l t : String}
    (hnd : (docs.map Prod.fst).Nodup) (h : (l, t) ∈ docs) :
    docs.lookup l = some t := by
  induction docs with
  | nil => simp at h
  | cons d ds ih =>
    rcases d with ⟨a, b⟩
    simp only [List.map_cons, List.nodup_cons] at hnd
    rcases List.mem_cons.mp h with hh | hh
    · rw [Prod.mk.injEq] at hh
      simp [List.lookup, hh.1, hh.2]
    · have hla : l ≠ a := by
        intro he
        subst he
        exact hnd.1 (List.mem_map.mpr ⟨(l, t), hh, rfl⟩)
      have hb : (l == a) = false := by simp [hla]
      simp only [List.lookup, hb]
      exact ih hnd.2 hh

/-- Modelled from the spec: the collection built from the labels drawn by
the random source.  `sel` stands for the sequence of `k` distinct labels the
seedable random source draws without replacement from the current label
population; the sampled collection pairs each drawn label with its stored
content. -/
def Corpus.sampleOk (c : Corpus) (sel : List String) : Corpus :=
  ⟨sel.filterMap (fun l => (c.docs.lookup l).map (fun t => (l, t)))⟩

/-- Modelled from the spec: `sample(k)` — fails with InvalidArgument when
`k` exceeds the current document count, otherwise returns the collection of
the `k` drawn label/content pairs. -/
def Corpus.sample (c : Corpus) (k : Nat) (sel : List String) :
    Except CorpusError Corpus :=
  if c.length < k then .error .invalidArgument else .ok (c.sampleOk sel)

/-- Modelled from the spec: the complete effect of a `sample` call — the
returned value paired with the state of the source collection after the
call.  The recorded session (a sample of 3 followed by a `doc_labels`
listing that still shows all 6 original labels) fixes the source state as
unchanged. -/
def Corpus.sampleCall (c : Corpus) (k : Nat) (sel : List String) :
    Except CorpusError Corpus × Corpus :=
  (c.sample k sel, c)

theorem mem_sampleOk_docs {c : Corpus} {sel : List String} {l t : String} :
    (l, t) ∈ (c.sampleOk sel).docs ↔ l ∈ sel ∧ c.docs.lookup l = some t := by
  simp only [Corpus.sampleOk, List.mem_filterMap, Option.map_eq_some']
  constructor
  · rintro ⟨a, ha, b, hb, he⟩
    rw [Prod.mk.injEq] at he
    exact ⟨he.1 ▸ ha, he.1 ▸ he.2 ▸ hb⟩
  · rintro ⟨hl, ht⟩
    exact ⟨l, hl, t, ht, rfl⟩

theorem sampleOk_doc_labels {c : Corpus} {sel : List String}
    (hsub : ∀ l ∈ sel, l ∈ c.doc_labels) :
    (c.sampleOk sel).doc_labels = sel := by
  induction sel with
  | nil => rfl
  | cons l ls ih =>
    obtain ⟨t, ht⟩ := lookup_exists_of_mem_labels (hsub l (by simp))
    have htl : (Corpus.sampleOk c ls).doc_labels = ls :=
      ih (fun x hx => hsub x (List.mem_cons_of_mem _ hx))
    simp only [Corpus.sampleOk, Corpus.doc_labels, List.filterMap_cons, ht,
      Option.map_some'] at htl ⊢
    simp [htl]

/-- Claim C3: `sample(k)` with `k` strictly greater than the current
document count fails with InvalidArgument, and — for any draw of `k`
distinct labels from the population — `sample(count())` returns all
documents of the collection (as a set, order not asserted). -/
theorem C3_sample_spec (c : Corpus) (k : Nat) (sel : List String) :
    (c.length < k → c.sample k sel = .error .invalidArgument) ∧
      (c.Wf → sel.Nodup → (∀ l ∈ sel, l ∈ c.doc_labels) → sel.length = k →
        k = c.length →
        c.sample k sel = .ok (c.sampleOk sel) ∧
          (c.sampleOk sel).docs.toFinset = c.docs.toFinset) := by
  constructor
  · intro h
    simp [Corpus.sample, h]
  · intro hwf hnd hsub hlen hk
    have hnlt : ¬c.length < k := by omega
    refine ⟨by simp [Corpus.sample, hnlt], ?_⟩
    have hlab : c.doc_labels.length = c.length := by
      simp [Corpus.doc_labels, Corpus.length]
    have hsel_fin : sel.toFinset = c.doc_labels.toFinset := by
      apply Finset.eq_of_subset_of_card_le
      · intro x hx
        rw [List.mem_toFinset] at hx ⊢
        exact hsub x hx
      · have hwf' : c.doc_labels.Nodup := hwf
        rw [List.toFinset_card_of_nodup hnd,
          List.toFinset_card_of_nodup hwf', hlab, hlen, hk]
    have hmem_sel : ∀ x, x ∈ sel ↔ x ∈ c.doc_labels := by
      intro x
      rw [← List.mem_toFinset, hsel_fin, List.mem_toFinset]
    ext p
    rcases p with ⟨l, t⟩
    rw [List.mem_toFinset, List.mem_toFinset, mem_sampleOk_docs]
    constructor
    · rintro ⟨-, ht⟩
      exact mem_of_lookup_eq_some ht
    · intro hm
      exact ⟨(hmem_sel l).mpr (List.mem_map.mpr ⟨(l, t), hm, rfl⟩),
        lookup_eq_some_of_mem hwf hm⟩

theorem C3_sample_spec_witness :
    ((Corpus.mk [("a", "1"), ("b", "2")]).sample 3 [] =
        Except.error CorpusError.invalidArgument) ∧
      ((Corpus.mk [("a", "1"), ("b", "2")]).sample 2 ["b", "a"] =
          Except.ok ((Corpus.mk [("a", "1"), ("b", "2")]).sampleOk ["b", "a"]) ∧
        ((Corpus.mk [("a", "1"), ("b", "2")]).sampleOk ["b", "a"]).docs.toFinset =
          (Corpus.mk [("a", "1"), ("b", "2")]).docs.toFinset) :=
  ⟨(C3_sample_spec (Corpus.mk [("a", "1"), ("b", "2")]) 3 []).1 (by decide),
   (C3_sample_spec (Corpus.mk [("a", "1"), ("b", "2")]) 2 ["b", "a"]).2
     (by decide) (by decide) (by decide) rfl rfl⟩

/-- Claim C2, counterexample: sampling one document out of a two-document
collection leaves the source with its two documents — the source does not
end up holding only the sampled documents, contradicting the claimed
destructive effect. -/
theorem C2_counterexample :
    ((Corpus.mk [("a", "x"), ("b", "y")]).sampleCall 1 ["a"]).2.length ≠ 1 ∧
      ((Corpus.mk [("a", "x"), ("b", "y")]).sampleCall 1 ["a"]).1 =
        Except.ok (Corpus.mk [("a", "x")]) ∧
      ((Corpus.mk [("a", "x"), ("b", "y")]).sampleCall 1 ["a"]).2 =
        Corpus.mk [("a", "x"), ("b", "y")] :=
  ⟨by decide, rfl, rfl⟩

/-- Claim C2, amended: for every collection with at least `k` documents,
`sample(k)` returns a new collection containing exactly the `k` sampled
label/content pairs, and the source collection is left unchanged by the
call (the operation is not destructive on the source). -/
theorem C2_sample_nondestructive (c : Corpus) (k : Nat) (sel : List String) :
    ((c.sampleCall k sel).2 = c) ∧
      (c.Wf → (∀ l ∈ sel, l ∈ c.doc_labels) → sel.length = k →
        k ≤ c.length →
        (c.sampleCall k sel).1 = .ok (c.sampleOk sel) ∧
          (c.sampleOk sel).doc_labels = sel ∧
          (c.sampleOk sel).length = k ∧
          (∀ l t, (l, t) ∈ (c.sampleOk sel).docs ↔ l ∈ sel ∧ (l, t) ∈ c.docs)) := by
  refine ⟨rfl, ?_⟩
  intro hwf hsub hlen hk
  have hnlt : ¬c.length < k := by omega
  have hlabels : (c.sampleOk sel).doc_labels = sel := sampleOk_doc_labels hsub
  refine ⟨by simp [Corpus.sampleCall, Corpus.sample, hnlt], hlabels, ?_, ?_⟩
  · have := congrArg List.length hlabels
    simpa [Corpus.doc_labels, Corpus.length, hlen] using this
  · intro l t
    rw [mem_sampleOk_docs]
    constructor
    · rintro ⟨hl, ht⟩
      exact ⟨hl, mem_of_lookup_eq_some ht⟩
    · rintro ⟨hl, hm⟩
      exact ⟨hl, lookup_eq_some_of_mem hwf hm⟩

theorem C2_sample_nondestructive_witness :
    ((Corpus.mk [("a", "x"), ("b", "y")]).sampleCall 1 ["b"]).2 =
        Corpus.mk [("a", "x"), ("b", "y")] ∧
      ((Corpus.mk [("a", "x"), ("b", "y")]).sampleCall 1 ["b"]).1 =
        Except.ok ((Corpus.mk [("a", "x"), ("b", "y")]).sampleOk ["b"]) ∧
      ((Corpus.mk [("a", "x"), ("b", "y")]).sampleOk ["b"]).doc_labels = ["b"] ∧
      ((Corpus.mk [("a", "x"), ("b", "y")]).sampleOk ["b"]).length = 1 :=
  have h := C2_sample_nondestructive (Corpus.mk [("a", "x"), ("b", "y")]) 1 ["b"]
  have h2 := h.2 (by decide) (by decide) rfl (by decide)
  ⟨h.1, h2.1, h2.2.1, h2.2.2.1⟩

theorem not_mem_map_fst_eraseP {docs : List (String × String)} {l : String}
    (hnd : (docs.map Prod.fst).Nodup) :
    l ∉ (docs.eraseP (fun d => d.1 == l)).map Prod.fst := by
  induction docs with
  | nil => simp
  | cons d ds ih =>
    rcases d with ⟨a, b⟩
    simp only [List.map_cons, List.nodup_cons] at hnd
    by_cases ha : a = l
    · subst ha
      rw [List.eraseP_cons_of_pos (by simp)]
      exact hnd.1
    · rw [List.eraseP_cons_of_neg (by simp [ha])]
      simp only [List.map_cons, List.mem_cons, not_or]
      exact ⟨fun he => ha he.symm, ih hnd.2⟩

/-- Claim C4: deleting a present label removes it from the label set and
decreases the document count by exactly one; deleting an absent label fails
with a NotFound error. -/
theorem C4_delete_spec (c : Corpus) (l : String) (hwf : c.Wf) :
    (l ∈ c.doc_labels →
      c.delete l = .ok (c.erase l) ∧
        l ∉ (c.erase l).doc_labels ∧
        (c.erase l).length + 1 = c.length) ∧
      (l ∉ c.doc_labels → c.delete l = .error .notFound) := by
  constructor
  · intro hl
    refine ⟨by simp [Corpus.delete, hl], not_mem_map_fst_eraseP hwf, ?_⟩
    obtain ⟨⟨l', t⟩, hmem, heq⟩ := List.mem_map.mp hl
    have heq' : l' = l := heq
    have hp : (l' == l) = true := by simp [heq']
    have hlen := @List.length_eraseP_of_mem _ c.docs (l', t)
      (fun d => d.1 == l) hmem hp
    have hpos : 0 < c.docs.length :=
      List.length_pos.mpr (List.ne_nil_of_mem hmem)
    simp only [Corpus.erase, Corpus.length]
    omega
  · intro hl
    simp [Corpus.delete, hl]

theorem C4_delete_spec_witness :
    ((Corpus.mk [("a", "1"), ("b", "2")]).delete "a" =
        Except.ok ((Corpus.mk [("a", "1"), ("b", "2")]).erase "a") ∧
      "a" ∉ ((Corpus.mk [("a", "1"), ("b", "2")]).erase "a").doc_labels ∧
      ((Corpus.mk [("a", "1"), ("b", "2")]).erase "a").length + 1 =
        (Corpus.mk [("a", "1"), ("b", "2")]).length) ∧
      (Corpus.mk [("a", "1"), ("b", "2")]).delete "z" =
        Except.error CorpusError.notFound :=
  ⟨(C4_delete_spec (Corpus.mk [("a", "1"), ("b", "2")]) "a" (by decide)).1
      (by decide),
   (C4_delete_spec (Corpus.mk [("a", "1"), ("b", "2")]) "z" (by decide)).2
      (by decide)⟩

/-- Claim C10, counterexample: a collection whose entries were stored with
label "b" before label "a" lists its labels as ["b", "a"], which is not in
ascending lexicographic order. -/
theorem C10_counterexample :
    Corpus.doc_labels (Corpus.mk [("b", "x"), ("a", "y")]) = ["b", "a"] ∧
      ¬List.Sorted (fun s t : String => s ≤ t)
        (Corpus.doc_labels (Corpus.mk [("b", "x"), ("a", "y")])) := by
  refine ⟨rfl, ?_⟩
  simp only [Corpus.doc_labels, List.map_cons, List.map_nil, List.sorted_cons]
  intro h
  exact absurd (h.1 "a" (by simp))
    (not_le.mpr (by rw [String.lt_iff_toList_lt]; decide))

/-- Claim C10, amended: `doc_labels` lists exactly the labels of the stored
documents, one per document, in the storage (insertion) order of the
underlying mapping; with no intervening mutation repeated calls return the
same list. -/
theorem C10_doc_labels_spec (c : Corpus) :
    c.doc_labels = c.docs.map Prod.fst ∧
      c.doc_labels.length = c.length ∧
      (∀ l, l ∈ c.doc_labels ↔ ∃ t, (l, t) ∈ c.docs) ∧
      c.doc_labels = c.doc_labels := by
  refine ⟨rfl, by simp [Corpus.doc_labels, Corpus.length], ?_, rfl⟩
  intro l
  constructor
  · intro h
    obtain ⟨⟨l', t⟩, hm, he⟩ := List.mem_map.mp h
    exact ⟨t, by simpa [← he] using hm⟩
  · rintro ⟨t, ht⟩
    exact List.mem_map.mpr ⟨(l, t), ht, rfl⟩
